import Mathlib

/-!
Verification of the Fibonacci engine driver (`src/fibdrv.c`).

The driver computes arbitrary-precision Fibonacci numbers with three
strategies (`fib_dp`, `fib_double`, `fib_double_clz`) over a decimal
BigNumber type `bn_t` declared in `bn.h`.  `bn.h` itself is not part of
the visible sources, so the BigNumber container and its arithmetic are
modelled from the specification (spec sections 3 and 4.1); everything in
`fibdrv.c` (the three strategies, `fib_read`'s formatting loop,
`fib_write`, `fib_device_lseek`) is translated from the C source.
-/

set_option maxRecDepth 8000

/-- Modelled from the spec: `bn.h` is missing from `src/`, so the BigNumber
container is taken from spec section 3: an ordered sequence of decimal digits
(each 0-9), least-significant digit first; the digit count `num_digits` of the
C struct is the length of this list. -/
structure bn_t where
  digits : List Nat
deriving DecidableEq, Repr

/-- The `num_digits` field of the C struct: the count of significant digits. -/
def bn_t.num_digits (a : bn_t) : Nat := a.digits.length

/-- Numeric value of a little-endian base-10 digit list. -/
def ofDigits10 : List Nat → Nat
  | [] => 0
  | d :: l => d + 10 * ofDigits10 l

/-- Numeric value denoted by a BigNumber. -/
def bn_toNat (a : bn_t) : Nat := ofDigits10 a.digits

/-- Fuel-driven decimal decomposition of a natural number (little-endian);
agrees with `Nat.digits 10 n` whenever `n ≤ fuel`. -/
def natDigitsAux : Nat → Nat → List Nat
  | 0, _ => []
  | _ + 1, 0 => []
  | fuel + 1, n + 1 => ((n + 1) % 10) :: natDigitsAux fuel ((n + 1) / 10)

/-- Modelled from the spec: `init(value)` (the C `bn_init`) decomposes a
non-negative integer into decimal digits, little-endian, always producing at
least one digit (zero is the single digit 0). -/
def bn_init (v : Nat) : bn_t := ⟨if v = 0 then [0] else natDigitsAux v v⟩

/-- Carry propagation through the tail of the longer operand of an addition. -/
def addCarry : List Nat → Nat → List Nat
  | [], c => if c = 0 then [] else [c]
  | b :: bs, c => ((b + c) % 10) :: addCarry bs ((b + c) / 10)

/-- Modelled from the spec: schoolbook digit-wise addition with carry
propagation over two little-endian digit lists. -/
def addAux : List Nat → List Nat → Nat → List Nat
  | [], bs, c => addCarry bs c
  | a :: as, [], c => addCarry (a :: as) c
  | a :: as, b :: bs, c => ((a + b + c) % 10) :: addAux as bs ((a + b + c) / 10)

/-- Borrow propagation through the tail of the minuend of a subtraction. -/
def subBorrow : List Nat → Nat → List Nat
  | [], _ => []
  | a :: as, brw =>
    if brw ≤ a then (a - brw) :: subBorrow as 0
    else ((a + 10) - brw) :: subBorrow as 1

/-- Modelled from the spec: schoolbook digit-wise subtraction with borrow
propagation; meaningful only under the documented precondition that the
minuend's value is at least the subtrahend's. -/
def subAux : List Nat → List Nat → Nat → List Nat
  | [], _, _ => []
  | a :: as, [], brw => subBorrow (a :: as) brw
  | a :: as, b :: bs, brw =>
    if b + brw ≤ a then (a - (b + brw)) :: subAux as bs 0
    else ((a + 10) - (b + brw)) :: subAux as bs 1

/-- One row of schoolbook multiplication: multiply a digit list by a single
digit, accumulating a carry. -/
def scaleDigit (d : Nat) : List Nat → Nat → List Nat
  | [], c => if c = 0 then [] else [c]
  | b :: bs, c => ((d * b + c) % 10) :: scaleDigit d bs ((d * b + c) / 10)

/-- Modelled from the spec: schoolbook digit-by-digit multiplication with
carry accumulation (sum of shifted single-digit rows). -/
def mulAux : List Nat → List Nat → List Nat
  | [], _ => []
  | a :: as, bs => addAux (scaleDigit a bs 0) (0 :: mulAux as bs) 0

/-- Remove trailing (most-significant) zero digits of a little-endian list. -/
def stripZeros : List Nat → List Nat
  | [] => []
  | d :: rest =>
    match stripZeros rest with
    | [] => if d = 0 then [] else [d]
    | r => d :: r

/-- Modelled from the spec: trailing (most-significant) zero digits are
trimmed, except that the single-digit zero is kept for the zero value. -/
def bn_trim (l : List Nat) : List Nat :=
  match stripZeros l with
  | [] => [0]
  | r => r

/-- Modelled from the spec: `add(a, b)`, schoolbook addition producing a new
canonical BigNumber. -/
def bn_add (a b : bn_t) : bn_t := ⟨bn_trim (addAux a.digits b.digits 0)⟩

/-- Modelled from the spec: `sub(a, b)`, schoolbook subtraction producing a
new canonical BigNumber; precondition `bn_toNat b ≤ bn_toNat a`. -/
def bn_sub (a b : bn_t) : bn_t := ⟨bn_trim (subAux a.digits b.digits 0)⟩

/-- Modelled from the spec: `mul(a, b)`, schoolbook multiplication producing
a new canonical BigNumber. -/
def bn_mul (a b : bn_t) : bn_t := ⟨bn_trim (mulAux a.digits b.digits)⟩

/-! ### The three Fibonacci strategies, translated from `src/fibdrv.c` -/

/-- `fib_dp`'s loop (`fibdrv.c` lines 30-43) fills a table `f` with
`f[0]=0`, `f[1]=1`, `f[i]=f[i-1]+f[i-2]`; only the last two entries feed the
next step, so the state after `i` iterations is the pair `(f[i], f[i+1])`. -/
def fib_dp_pair : Nat → bn_t × bn_t
  | 0 => (bn_init 0, bn_init 1)
  | n + 1 =>
    match fib_dp_pair n with
    | (a, b) => (b, bn_add b a)

/-- `fib_dp k` (`fibdrv.c` lines 30-43): linear dynamic programming, returns
`f[k]`. -/
def fib_dp (k : Nat) : bn_t := (fib_dp_pair k).1

/-- The body of the doubling loop shared by `fib_double` (lines 54-68) and
`fib_double_clz` (lines 82-96): from `(a, b)` compute
`t1 = a*(2b - a)`, `t2 = a*a + b*b`, set `(a, b) := (t1, t2)`, and if bit `i`
of `k` is set advance once more: `(a, b) := (b, a + b)`. -/
def doubleStep (k : Nat) (ab : bn_t × bn_t) (i : Nat) : bn_t × bn_t :=
  match ab with
  | (a, b) =>
    let tmp1 := bn_add b b
    let tmp2 := bn_sub tmp1 a
    let t1 := bn_mul a tmp2
    let t2 := bn_add (bn_mul a a) (bn_mul b b)
    if k.testBit i then (t2, bn_add t1 t2) else (t1, t2)

/-- `fib_double k` (`fibdrv.c` lines 45-71): fast doubling scanning the fixed
bit window `i = 31` down to `0`; `k = 0` and `k = 1` return before the loop. -/
def fib_double (k : Nat) : bn_t :=
  if k = 0 then bn_init 0
  else if k = 1 then bn_init 1
  else (((List.range 32).reverse).foldl (doubleStep k) (bn_init 0, bn_init 1)).1

/-- Fuel-driven base-2 logarithm; agrees with `Nat.log2 n` for `n < 2 ^ fuel`. -/
def log2Aux : Nat → Nat → Nat
  | 0, _ => 0
  | fuel + 1, n => if 2 ≤ n then log2Aux fuel (n / 2) + 1 else 0

/-- Count of leading zeros of the low 32 bits of `k`, as computed by
`__builtin_clz((unsigned int) k)`; the builtin is undefined at argument 0, so
theorems about `fib_double_clz` restrict to `k < 2 ^ 32` (every index the
driver can pass is at most 150). -/
def clz32 (k : Nat) : Nat := 31 - log2Aux 32 (k % 2 ^ 32)

/-- `fib_double_clz k` (`fibdrv.c` lines 73-99): identical loop body, but the
scan starts at bit `31 - __builtin_clz(k)`, the highest set bit of `k`. -/
def fib_double_clz (k : Nat) : bn_t :=
  if k = 0 then bn_init 0
  else if k = 1 then bn_init 1
  else
    (((List.range (32 - clz32 k)).reverse).foldl
      (doubleStep k) (bn_init 0, bn_init 1)).1

/-- Number of iterations of the doubling loop executed by `fib_double k`:
none for the short-circuited bases, otherwise the full window `31..0`. -/
def fib_double_iters (k : Nat) : Nat :=
  if k = 0 then 0 else if k = 1 then 0 else ((List.range 32).reverse).length

/-- Number of iterations of the doubling loop executed by `fib_double_clz k`:
none for the short-circuited bases, otherwise `31 - clz(k)` down to `0`. -/
def fib_double_clz_iters (k : Nat) : Nat :=
  if k = 0 then 0 else if k = 1 then 0
  else ((List.range (32 - clz32 k)).reverse).length

/-- Bit length of `k`: position of the highest set bit plus one (0 for 0). -/
def bitLength (k : Nat) : Nat := if k = 0 then 0 else Nat.log2 k + 1

/-! ### The device-facing functions, translated from `src/fibdrv.c` -/

/-- `fib_read`'s formatting loop (`fibdrv.c` lines 126-130): emit the digits
of the result most-significant first, each rendered by `snprintf("%d", ·)`
(decimal rendering of the digit cell). -/
def format_bn (r : bn_t) : String :=
  ⟨(r.digits.reverse.map (fun d => Nat.toDigits 10 d)).flatten⟩

/-- The three values the strategy selector `fib_sequence` can hold (the C
function pointer set by `fib_write`). -/
inductive FibAlg : Type
  | FIB_DP : FibAlg
  | FIB_DOUB : FibAlg
  | FIB_DOUB_CLZ : FibAlg
deriving DecidableEq, Repr

/-- `fib_write` (`fibdrv.c` lines 136-158): switch on the first byte of the
user buffer (a C `char`, hence modelled as an integer; values 0, 1, 2 select
a strategy, anything else falls through leaving the selector unchanged), and
return 1 whatever the byte and the `size` argument are. -/
def fib_write (buf0 : Int) (size : Nat) (cur : FibAlg) : FibAlg × Int :=
  ((if buf0 = 0 then FibAlg.FIB_DP
    else if buf0 = 1 then FibAlg.FIB_DOUB
    else if buf0 = 2 then FibAlg.FIB_DOUB_CLZ
    else cur), 1)

/-- `MAX_LENGTH` from `fibdrv.c`. -/
def MAX_LENGTH : Int := 150

/-- `fib_device_lseek` (`fibdrv.c` lines 160-181): compute a tentative new
position from the origin mode (`0` SEEK_SET, `1` SEEK_CUR, `2` SEEK_END maps
to `MAX_LENGTH - offset`, anything else leaves the initial 0), clamp it into
`[0, MAX_LENGTH]`, store it as the file position and return it. -/
def fib_device_lseek (f_pos : Int) (offset : Int) (orig : Int) : Int :=
  let new_pos : Int :=
    if orig = 0 then offset
    else if orig = 1 then f_pos + offset
    else if orig = 2 then MAX_LENGTH - offset
    else 0
  let clamped_hi := if new_pos > MAX_LENGTH then MAX_LENGTH else new_pos
  let clamped := if clamped_hi < 0 then 0 else clamped_hi
  clamped

/-! ### Values of the digit-list operations -/

theorem ofDigits10_eq_ofDigits (l : List Nat) : ofDigits10 l = Nat.ofDigits 10 l := by
  induction l with
  | nil => rfl
  | cons d t ih => simp [ofDigits10, Nat.ofDigits_cons, ih]

theorem ofDigits10_addCarry (bs : List Nat) (c : Nat) :
    ofDigits10 (addCarry bs c) = ofDigits10 bs + c := by
  induction bs generalizing c with
  | nil => by_cases h : c = 0 <;> simp [addCarry, h, ofDigits10]
  | cons b t ih => simp [addCarry, ofDigits10, ih]; omega

theorem ofDigits10_addAux (as bs : List Nat) (c : Nat) :
    ofDigits10 (addAux as bs c) = ofDigits10 as + ofDigits10 bs + c := by
  induction as generalizing bs c with
  | nil => simp [addAux, ofDigits10, ofDigits10_addCarry]
  | cons a t ih =>
    cases bs with
    | nil => simp [addAux, ofDigits10, ofDigits10_addCarry]; omega
    | cons b u => simp [addAux, ofDigits10, ih]; omega

theorem ofDigits10_subBorrow (bs : List Nat) (brw : Nat) (hb : brw ≤ 1)
    (h : brw ≤ ofDigits10 bs) :
    ofDigits10 (subBorrow bs brw) = ofDigits10 bs - brw := by
  induction bs generalizing brw with
  | nil => simp [ofDigits10] at h; simp [subBorrow, ofDigits10, h]
  | cons a t ih =>
    simp only [subBorrow, ofDigits10] at *
    by_cases hba : brw ≤ a
    · rw [if_pos hba, ofDigits10, ih 0 (by omega) (by omega)]; omega
    · have ha : a = 0 := by omega
      have hbrw : brw = 1 := by omega
      have ht : 1 ≤ ofDigits10 t := by omega
      rw [if_neg hba, ofDigits10, ih 1 (by omega) ht]; omega

theorem ofDigits10_subAux (as bs : List Nat) (brw : Nat)
    (ha : ∀ d ∈ as, d < 10) (hb : ∀ d ∈ bs, d < 10) (hbrw : brw ≤ 1)
    (h : ofDigits10 bs + brw ≤ ofDigits10 as) :
    ofDigits10 (subAux as bs brw) = ofDigits10 as - ofDigits10 bs - brw := by
  induction as generalizing bs brw with
  | nil =>
    simp only [subAux, ofDigits10] at h ⊢
    omega
  | cons a t ih =>
    cases bs with
    | nil =>
      simp only [subAux, ofDigits10]
      rw [ofDigits10_subBorrow (a :: t) brw hbrw (by simpa [ofDigits10] using h)]
      simp [ofDigits10]
    | cons b u =>
      have ha10 : a < 10 := ha a (by simp)
      have hb10 : b < 10 := hb b (by simp)
      have hta : ∀ d ∈ t, d < 10 := fun d hd => ha d (by simp [hd])
      have htb : ∀ d ∈ u, d < 10 := fun d hd => hb d (by simp [hd])
      simp only [subAux, ofDigits10] at h ⊢
      by_cases hba : b + brw ≤ a
      · have hrec : ofDigits10 u + 0 ≤ ofDigits10 t := by omega
        rw [if_pos hba, ofDigits10, ih u 0 hta htb (by omega) hrec]; omega
      · have hrec : ofDigits10 u + 1 ≤ ofDigits10 t := by omega
        rw [if_neg hba, ofDigits10, ih u 1 hta htb (by omega) hrec]; omega

theorem ofDigits10_scaleDigit (d : Nat) (bs : List Nat) (c : Nat) :
    ofDigits10 (scaleDigit d bs c) = d * ofDigits10 bs + c := by
  induction bs generalizing c with
  | nil => by_cases h : c = 0 <;> simp [scaleDigit, h, ofDigits10]
  | cons b t ih => simp [scaleDigit, ofDigits10, ih]; ring_nf; omega

theorem ofDigits10_mulAux (as bs : List Nat) :
    ofDigits10 (mulAux as bs) = ofDigits10 as * ofDigits10 bs := by
  induction as with
  | nil => simp [mulAux, ofDigits10]
  | cons a t ih =>
    simp [mulAux, ofDigits10, ofDigits10_addAux, ofDigits10_scaleDigit, ih]
    ring

theorem ofDigits10_stripZeros (l : List Nat) :
    ofDigits10 (stripZeros l) = ofDigits10 l := by
  induction l with
  | nil => rfl
  | cons d t ih =>
    simp only [stripZeros]
    cases hst : stripZeros t with
    | nil =>
      rw [hst] at ih
      by_cases hd : d = 0 <;> simp [hd, ofDigits10, ← ih]
    | cons r rs =>
      rw [hst] at ih
      show d + 10 * ofDigits10 (r :: rs) = ofDigits10 (d :: t)
      rw [ih]; rfl

theorem ofDigits10_bn_trim (l : List Nat) :
    ofDigits10 (bn_trim l) = ofDigits10 l := by
  unfold bn_trim
  cases hst : stripZeros l with
  | nil =>
    have h := ofDigits10_stripZeros l
    rw [hst] at h
    simp [ofDigits10] at h ⊢
    omega
  | cons r rs =>
    have h := ofDigits10_stripZeros l
    rw [hst] at h
    exact h

/-! ### Digit bounds and canonicity of the operation results -/

theorem addCarry_lt10 (bs : List Nat) (c : Nat) (hb : ∀ d ∈ bs, d < 10)
    (hc : c ≤ 1) : ∀ d ∈ addCarry bs c, d < 10 := by
  induction bs generalizing c with
  | nil =>
    intro d hd
    by_cases h : c = 0 <;> simp [addCarry, h] at hd
    omega
  | cons b t ih =>
    intro d hd
    simp only [addCarry, List.mem_cons] at hd
    rcases hd with h | h
    · omega
    · have hb10 : b < 10 := hb b (by simp)
      exact ih ((b + c) / 10) (fun x hx => hb x (by simp [hx])) (by omega) d h

theorem addAux_lt10 (as bs : List Nat) (c : Nat) (ha : ∀ d ∈ as, d < 10)
    (hb : ∀ d ∈ bs, d < 10) (hc : c ≤ 1) : ∀ d ∈ addAux as bs c, d < 10 := by
  induction as generalizing bs c with
  | nil => exact fun d hd => addCarry_lt10 bs c hb hc d hd
  | cons a t ih =>
    cases bs with
    | nil => exact fun d hd => addCarry_lt10 (a :: t) c ha hc d hd
    | cons b u =>
      intro d hd
      simp only [addAux, List.mem_cons] at hd
      rcases hd with h | h
      · omega
      · have ha10 : a < 10 := ha a (by simp)
        have hb10 : b < 10 := hb b (by simp)
        exact ih u ((a + b + c) / 10) (fun x hx => ha x (by simp [hx]))
          (fun x hx => hb x (by simp [hx])) (by omega) d h

theorem subBorrow_lt10 (bs : List Nat) (brw : Nat) (hb : ∀ d ∈ bs, d < 10)
    (hbrw : brw ≤ 1) : ∀ d ∈ subBorrow bs brw, d < 10 := by
  induction bs generalizing brw with
  | nil => intro d hd; simp [subBorrow] at hd
  | cons a t ih =>
    intro d hd
    have ha10 : a < 10 := hb a (by simp)
    simp only [subBorrow] at hd
    by_cases h : brw ≤ a
    · rw [if_pos h] at hd
      rcases List.mem_cons.mp hd with h1 | h1
      · omega
      · exact ih 0 (fun x hx => hb x (by simp [hx])) (by omega) d h1
    · rw [if_neg h] at hd
      rcases List.mem_cons.mp hd with h1 | h1
      · omega
      · exact ih 1 (fun x hx => hb x (by simp [hx])) (by omega) d h1

theorem subAux_lt10 (as bs : List Nat) (brw : Nat) (ha : ∀ d ∈ as, d < 10)
    (hb : ∀ d ∈ bs, d < 10) (hbrw : brw ≤ 1) : ∀ d ∈ subAux as bs brw, d < 10 := by
  induction as generalizing bs brw with
  | nil => intro d hd; simp [subAux] at hd
  | cons a t ih =>
    cases bs with
    | nil => exact fun d hd => subBorrow_lt10 (a :: t) brw ha hbrw d hd
    | cons b u =>
      intro d hd
      have ha10 : a < 10 := ha a (by simp)
      have hb10 : b < 10 := hb b (by simp)
      simp only [subAux] at hd
      by_cases h : b + brw ≤ a
      · rw [if_pos h] at hd
        rcases List.mem_cons.mp hd with h1 | h1
        · omega
        · exact ih u 0 (fun x hx => ha x (by simp [hx]))
            (fun x hx => hb x (by simp [hx])) (by omega) d h1
      · rw [if_neg h] at hd
        rcases List.mem_cons.mp hd with h1 | h1
        · omega
        · exact ih u 1 (fun x hx => ha x (by simp [hx]))
            (fun x hx => hb x (by simp [hx])) (by omega) d h1

theorem scaleDigit_lt10 (a : Nat) (bs : List Nat) (c : Nat) (ha : a < 10)
    (hb : ∀ d ∈ bs, d < 10) (hc : c < 10) : ∀ d ∈ scaleDigit a bs c, d < 10 := by
  induction bs generalizing c with
  | nil =>
    intro d hd
    by_cases h : c = 0 <;> simp [scaleDigit, h] at hd
    omega
  | cons b t ih =>
    intro d hd
    have hb10 : b < 10 := hb b (by simp)
    simp only [scaleDigit, List.mem_cons] at hd
    rcases hd with h | h
    · omega
    · have : (a * b + c) / 10 < 10 := by
        have h81 : a * b ≤ 9 * 9 :=
          Nat.mul_le_mul (show a ≤ 9 by omega) (show b ≤ 9 by omega)
        omega
      exact ih ((a * b + c) / 10) (fun x hx => hb x (by simp [hx])) this d h

theorem mulAux_lt10 (as bs : List Nat) (ha : ∀ d ∈ as, d < 10)
    (hb : ∀ d ∈ bs, d < 10) : ∀ d ∈ mulAux as bs, d < 10 := by
  induction as with
  | nil => intro d hd; simp [mulAux] at hd
  | cons a t ih =>
    intro d hd
    have ha10 : a < 10 := ha a (by simp)
    simp only [mulAux] at hd
    refine addAux_lt10 _ _ 0 (scaleDigit_lt10 a bs 0 ha10 hb (by omega)) ?_ (by omega) d hd
    intro x hx
    rcases List.mem_cons.mp hx with h1 | h1
    · omega
    · exact ih (fun y hy => ha y (by simp [hy])) x h1

theorem stripZeros_subset (l : List Nat) : ∀ d ∈ stripZeros l, d ∈ l := by
  induction l with
  | nil => intro d hd; simp [stripZeros] at hd
  | cons a t ih =>
    intro d hd
    simp only [stripZeros] at hd
    cases hst : stripZeros t with
    | nil =>
      rw [hst] at hd
      by_cases h : a = 0 <;> simp [h] at hd
      simp [hd]
    | cons r rs =>
      rw [hst] at hd
      rcases List.mem_cons.mp hd with h1 | h1
      · simp [h1]
      · have : d ∈ stripZeros t := by rw [hst]; exact h1
        exact List.mem_cons.mpr (Or.inr (ih d this))

theorem bn_trim_lt10 (l : List Nat) (h : ∀ d ∈ l, d < 10) :
    ∀ d ∈ bn_trim l, d < 10 := by
  intro d hd
  unfold bn_trim at hd
  cases hst : stripZeros l with
  | nil => rw [hst] at hd; simp at hd; omega
  | cons r rs =>
    rw [hst] at hd
    have : d ∈ stripZeros l := by rw [hst]; exact hd
    exact h d (stripZeros_subset l d this)

theorem stripZeros_getLast? (l : List Nat) :
    stripZeros l = [] ∨ (stripZeros l).getLast? ≠ some 0 := by
  induction l with
  | nil => exact Or.inl rfl
  | cons a t ih =>
    simp only [stripZeros]
    cases hst : stripZeros t with
    | nil =>
      by_cases h : a = 0
      · exact Or.inl (by simp [h])
      · right; simp [h]
    | cons r rs =>
      right
      rw [hst] at ih
      rcases ih with h | h
      · exact absurd h (by simp)
      · rw [List.getLast?_cons_cons]
        exact h

theorem bn_trim_ne_nil (l : List Nat) : bn_trim l ≠ [] := by
  unfold bn_trim
  cases hst : stripZeros l <;> simp

theorem bn_trim_canonical (l : List Nat) :
    bn_trim l = [0] ∨ (bn_trim l).getLast? ≠ some 0 := by
  unfold bn_trim
  cases hst : stripZeros l with
  | nil => exact Or.inl rfl
  | cons r rs =>
    rcases stripZeros_getLast? l with h | h
    · rw [hst] at h; exact absurd h (by simp)
    · rw [hst] at h; exact Or.inr h

/-! ### `bn_init` produces the canonical representation -/

theorem natDigitsAux_eq_digits (fuel n : Nat) (h : n ≤ fuel) :
    natDigitsAux fuel n = Nat.digits 10 n := by
  induction fuel generalizing n with
  | zero =>
    have : n = 0 := by omega
    subst this
    simp [natDigitsAux]
  | succ f ih =>
    cases n with
    | zero => simp [natDigitsAux]
    | succ m =>
      rw [show natDigitsAux (f + 1) (m + 1)
            = ((m + 1) % 10) :: natDigitsAux f ((m + 1) / 10) from rfl,
        ih ((m + 1) / 10) (by omega),
        Nat.digits_def' (by norm_num : (1 : ℕ) < 10) (Nat.succ_pos m)]

theorem bn_init_digits (v : Nat) :
    (bn_init v).digits = if v = 0 then [0] else Nat.digits 10 v := by
  unfold bn_init
  by_cases h : v = 0
  · simp [h]
  · simp [h, natDigitsAux_eq_digits v v (le_refl v)]

theorem bn_init_lt10 (v : Nat) : ∀ d ∈ (bn_init v).digits, d < 10 := by
  intro d hd
  rw [bn_init_digits] at hd
  by_cases h : v = 0
  · simp [h] at hd; omega
  · rw [if_neg h] at hd
    exact Nat.digits_lt_base (by norm_num) hd

theorem bn_init_ne_nil (v : Nat) : (bn_init v).digits ≠ [] := by
  rw [bn_init_digits]
  by_cases h : v = 0
  · simp [h]
  · rw [if_neg h]
    exact Nat.digits_ne_nil_iff_ne_zero.mpr h

theorem bn_init_canonical (v : Nat) :
    (bn_init v).digits = [0] ∨ (bn_init v).digits.getLast? ≠ some 0 := by
  rw [bn_init_digits]
  by_cases h : v = 0
  · simp [h]
  · right
    rw [if_neg h]
    have hne : Nat.digits 10 v ≠ [] := Nat.digits_ne_nil_iff_ne_zero.mpr h
    rw [List.getLast?_eq_getLast _ hne]
    intro hc
    exact Nat.getLast_digit_ne_zero 10 h (Option.some.inj hc)

theorem bn_toNat_init (v : Nat) : bn_toNat (bn_init v) = v := by
  unfold bn_toNat
  rw [bn_init_digits, ofDigits10_eq_ofDigits]
  by_cases h : v = 0
  · simp [h, Nat.ofDigits]
  · rw [if_neg h]
    exact_mod_cast Nat.ofDigits_digits 10 v

/-- A BigNumber with valid digits and no superfluous most-significant zero is
exactly the canonical representation of its value. -/
theorem bn_eq_init (a : bn_t) (hlt : ∀ d ∈ a.digits, d < 10)
    (hne : a.digits ≠ []) (hcanon : a.digits = [0] ∨ a.digits.getLast? ≠ some 0) :
    a = bn_init (bn_toNat a) := by
  rcases hcanon with h0 | hlast
  · have hv : bn_toNat a = 0 := by
      unfold bn_toNat
      rw [h0]
      rfl
    cases a with
    | mk l =>
      simp only at h0
      subst h0
      rw [hv]
      rfl
  · have hlast' : ∀ (h : a.digits ≠ []), a.digits.getLast h ≠ 0 := by
      intro h hc
      exact hlast (by rw [List.getLast?_eq_getLast _ h, hc])
    have hdig : Nat.digits 10 (Nat.ofDigits 10 a.digits) = a.digits :=
      Nat.digits_ofDigits 10 (by norm_num) a.digits hlt hlast'
    have hv0 : bn_toNat a ≠ 0 := by
      intro hc
      unfold bn_toNat at hc
      rw [ofDigits10_eq_ofDigits] at hc
      have : Nat.ofDigits 10 a.digits = 0 := by exact_mod_cast hc
      rw [this] at hdig
      simp at hdig
      exact hne hdig
    cases a with
    | mk l =>
      have : (bn_init (bn_toNat ⟨l⟩)).digits = l := by
        rw [bn_init_digits, if_neg hv0]
        unfold bn_toNat
        rw [ofDigits10_eq_ofDigits]
        exact hdig
      cases hb : bn_init (bn_toNat ⟨l⟩) with
      | mk l2 =>
        rw [hb] at this
        simp only at this
        rw [this]

/-! ### The operations, applied to canonical representations -/

theorem bn_add_init (x y : Nat) :
    bn_add (bn_init x) (bn_init y) = bn_init (x + y) := by
  have hval : bn_toNat (bn_add (bn_init x) (bn_init y)) = x + y := by
    unfold bn_toNat bn_add
    simp only
    rw [ofDigits10_bn_trim, ofDigits10_addAux]
    have hx := bn_toNat_init x
    have hy := bn_toNat_init y
    unfold bn_toNat at hx hy
    omega
  have := bn_eq_init (bn_add (bn_init x) (bn_init y))
    (bn_trim_lt10 _ (addAux_lt10 _ _ 0 (bn_init_lt10 x) (bn_init_lt10 y) (by omega)))
    (bn_trim_ne_nil _) (bn_trim_canonical _)
  rw [hval] at this
  exact this

theorem bn_sub_init (x y : Nat) (h : y ≤ x) :
    bn_sub (bn_init x) (bn_init y) = bn_init (x - y) := by
  have hx := bn_toNat_init x
  have hy := bn_toNat_init y
  unfold bn_toNat at hx hy
  have hval : bn_toNat (bn_sub (bn_init x) (bn_init y)) = x - y := by
    unfold bn_toNat bn_sub
    simp only
    rw [ofDigits10_bn_trim,
      ofDigits10_subAux _ _ 0 (bn_init_lt10 x) (bn_init_lt10 y) (by omega) (by omega)]
    omega
  have := bn_eq_init (bn_sub (bn_init x) (bn_init y))
    (bn_trim_lt10 _ (subAux_lt10 _ _ 0 (bn_init_lt10 x) (bn_init_lt10 y) (by omega)))
    (bn_trim_ne_nil _) (bn_trim_canonical _)
  rw [hval] at this
  exact this

theorem bn_mul_init (x y : Nat) :
    bn_mul (bn_init x) (bn_init y) = bn_init (x * y) := by
  have hx := bn_toNat_init x
  have hy := bn_toNat_init y
  unfold bn_toNat at hx hy
  have hval : bn_toNat (bn_mul (bn_init x) (bn_init y)) = x * y := by
    unfold bn_toNat bn_mul
    simp only
    rw [ofDigits10_bn_trim, ofDigits10_mulAux, hx, hy]
  have := bn_eq_init (bn_mul (bn_init x) (bn_init y))
    (bn_trim_lt10 _ (mulAux_lt10 _ _ (bn_init_lt10 x) (bn_init_lt10 y)))
    (bn_trim_ne_nil _) (bn_trim_canonical _)
  rw [hval] at this
  exact this

/-! ### The strategies compute canonical Fibonacci numbers -/

theorem fib_dp_pair_eq (n : Nat) :
    fib_dp_pair n = (bn_init (Nat.fib n), bn_init (Nat.fib (n + 1))) := by
  induction n with
  | zero => rfl
  | succ m ih =>
    rw [show fib_dp_pair (m + 1)
          = ((fib_dp_pair m).2, bn_add (fib_dp_pair m).2 (fib_dp_pair m).1) by
        rw [fib_dp_pair],
      ih]
    simp only [bn_add_init]
    rw [show Nat.fib (m + 1) + Nat.fib m = Nat.fib (m + 2) by
      rw [Nat.fib_add_two]; omega]

theorem fib_dp_eq (k : Nat) : fib_dp k = bn_init (Nat.fib k) := by
  rw [fib_dp, fib_dp_pair_eq]

theorem doubleStep_init (k i m : Nat) :
    doubleStep k (bn_init (Nat.fib m), bn_init (Nat.fib (m + 1))) i
      = (bn_init (Nat.fib (2 * m + if k.testBit i then 1 else 0)),
         bn_init (Nat.fib ((2 * m + if k.testBit i then 1 else 0) + 1))) := by
  have hle : Nat.fib m ≤ Nat.fib (m + 1) + Nat.fib (m + 1) :=
    le_trans Nat.fib_le_fib_succ (Nat.le_add_right _ _)
  have hfib2m : Nat.fib m * (Nat.fib (m + 1) + Nat.fib (m + 1) - Nat.fib m)
      = Nat.fib (2 * m) := by
    rw [Nat.fib_two_mul]
    congr 1
    omega
  have hfib2m1 : Nat.fib m * Nat.fib m + Nat.fib (m + 1) * Nat.fib (m + 1)
      = Nat.fib (2 * m + 1) := by
    rw [Nat.fib_two_mul_add_one, pow_two, pow_two]
    exact Nat.add_comm _ _
  by_cases hbit : k.testBit i
  · simp only [doubleStep, hbit, if_true, bn_add_init, bn_sub_init _ _ hle,
      bn_mul_init, hfib2m, hfib2m1]
    rw [show Nat.fib (2 * m) + Nat.fib (2 * m + 1) = Nat.fib (2 * m + 1 + 1) by
      rw [show 2 * m + 1 + 1 = 2 * m + 2 by omega, Nat.fib_add_two]]
  · simp only [doubleStep, hbit, if_false, bn_add_init, bn_sub_init _ _ hle,
      bn_mul_init, hfib2m, hfib2m1]
    simp

theorem doubleLoop_init (k n : Nat) : ∀ m : Nat,
    ((List.range n).reverse).foldl (doubleStep k)
        (bn_init (Nat.fib m), bn_init (Nat.fib (m + 1)))
      = (bn_init (Nat.fib (m * 2 ^ n + k % 2 ^ n)),
         bn_init (Nat.fib ((m * 2 ^ n + k % 2 ^ n) + 1))) := by
  induction n with
  | zero => intro m; simp [Nat.mod_one]
  | succ n ih =>
    intro m
    have hsplit : k % 2 ^ (n + 1) = k % 2 ^ n + 2 ^ n * (k / 2 ^ n % 2) := by
      rw [pow_succ, Nat.mod_mul]
    rw [List.range_succ, List.reverse_append, List.reverse_singleton,
      List.singleton_append, List.foldl_cons, doubleStep_init, ih]
    by_cases hbit : k.testBit n
    · have hb1 : k / 2 ^ n % 2 = 1 := by
        simpa [Nat.testBit_to_div_mod] using hbit
      have hcond : (if k.testBit n then (1 : Nat) else 0) = 1 := by
        simp [hbit]
      have hidx : (2 * m + if k.testBit n then 1 else 0) * 2 ^ n + k % 2 ^ n
          = m * 2 ^ (n + 1) + k % 2 ^ (n + 1) := by
        rw [hcond, hsplit, hb1, pow_succ]
        ring
      rw [hidx]
    · have hb0 : k / 2 ^ n % 2 = 0 := by
        have h1 : ¬(k / 2 ^ n % 2 = 1) := by
          simpa [Nat.testBit_to_div_mod] using hbit
        omega
      have hcond : (if k.testBit n then (1 : Nat) else 0) = 0 := by
        simp [hbit]
      have hidx : (2 * m + if k.testBit n then 1 else 0) * 2 ^ n + k % 2 ^ n
          = m * 2 ^ (n + 1) + k % 2 ^ (n + 1) := by
        rw [hcond, hsplit, hb0, pow_succ]
        ring
      rw [hidx]

theorem fib_double_eq (k : Nat) (hk : k < 2 ^ 32) :
    fib_double k = bn_init (Nat.fib k) := by
  unfold fib_double
  by_cases h0 : k = 0
  · simp [h0]
  · by_cases h1 : k = 1
    · simp [h0, h1]
    · rw [if_neg h0, if_neg h1]
      have := doubleLoop_init k 32 0
      rw [show bn_init (Nat.fib 0) = bn_init 0 from rfl,
        show bn_init (Nat.fib (0 + 1)) = bn_init 1 from rfl] at this
      rw [this]
      simp only
      rw [Nat.zero_mul, Nat.zero_add, Nat.mod_eq_of_lt hk]

theorem log2_le_31 (k : Nat) (hk : k < 2 ^ 32) (h0 : k ≠ 0) : Nat.log2 k ≤ 31 := by
  have := (Nat.log2_lt h0).mpr hk
  omega

theorem log2Aux_eq (fuel : Nat) : ∀ n : Nat, n < 2 ^ fuel → log2Aux fuel n = Nat.log2 n := by
  induction fuel with
  | zero =>
    intro n hn
    have : n = 0 := by simpa using hn
    subst this
    rw [Nat.log2]
    rfl
  | succ f ih =>
    intro n hn
    by_cases h2 : 2 ≤ n
    · have hdiv : n / 2 < 2 ^ f := by
        rw [pow_succ] at hn
        omega
      rw [show log2Aux (f + 1) n = log2Aux f (n / 2) + 1 by
            rw [log2Aux]; rw [if_pos h2]]
      conv_rhs => rw [Nat.log2]
      rw [if_pos h2, ih (n / 2) hdiv]
    · rw [show log2Aux (f + 1) n = 0 by rw [log2Aux]; rw [if_neg h2]]
      conv_rhs => rw [Nat.log2]
      rw [if_neg h2]

theorem clz32_eq (k : Nat) (hk : k < 2 ^ 32) : clz32 k = 31 - Nat.log2 k := by
  unfold clz32
  rw [Nat.mod_eq_of_lt hk, log2Aux_eq 32 k hk]

theorem fib_double_clz_eq (k : Nat) (hk : k < 2 ^ 32) :
    fib_double_clz k = bn_init (Nat.fib k) := by
  unfold fib_double_clz
  by_cases h0 : k = 0
  · simp [h0]
  · by_cases h1 : k = 1
    · simp [h0, h1]
    · rw [if_neg h0, if_neg h1]
      have hlog : Nat.log2 k ≤ 31 := log2_le_31 k hk h0
      have hwin : 32 - clz32 k = Nat.log2 k + 1 := by
        rw [clz32_eq k hk]
        omega
      have := doubleLoop_init k (32 - clz32 k) 0
      rw [show bn_init (Nat.fib 0) = bn_init 0 from rfl,
        show bn_init (Nat.fib (0 + 1)) = bn_init 1 from rfl] at this
      rw [this]
      simp only
      rw [Nat.zero_mul, Nat.zero_add, hwin,
        Nat.mod_eq_of_lt (by exact Nat.lt_log2_self)]

/-- Any number of doubling-loop iterations keeps the state a pair of
consecutive canonical Fibonacci numbers. -/
theorem foldl_doubleStep_shape (k : Nat) (l : List Nat) : ∀ m : Nat,
    ∃ m' : Nat,
      l.foldl (doubleStep k) (bn_init (Nat.fib m), bn_init (Nat.fib (m + 1)))
        = (bn_init (Nat.fib m'), bn_init (Nat.fib (m' + 1))) := by
  induction l with
  | nil => intro m; exact ⟨m, rfl⟩
  | cons i t ih =>
    intro m
    rw [List.foldl_cons, doubleStep_init]
    exact ih (2 * m + if k.testBit i then 1 else 0)

/-! ### Formatting lemmas -/

theorem toDigits_lt10 (d : Nat) (h : d < 10) :
    Nat.toDigits 10 d = [Char.ofNat (48 + d)] := by
  interval_cases d <;> decide

theorem flatten_map_toDigits (l : List Nat) (h : ∀ d ∈ l, d < 10) :
    (l.map (fun d => Nat.toDigits 10 d)).flatten
      = l.map (fun d => Char.ofNat (48 + d)) := by
  induction l with
  | nil => rfl
  | cons a t ih =>
    simp only [List.map_cons, List.flatten_cons, toDigits_lt10 a (h a (by simp))]
    rw [ih (fun d hd => h d (by simp [hd]))]
    rfl

theorem char48_eq_zero (d : Nat) (h : d < 10)
    (hc : Char.ofNat (48 + d) = Char.ofNat 48) : d = 0 := by
  interval_cases d <;> revert hc <;> decide

theorem format_init (n : Nat) :
    (format_bn (bn_init n)).data
      = (bn_init n).digits.reverse.map (fun d => Char.ofNat (48 + d)) := by
  show ((bn_init n).digits.reverse.map (fun d => Nat.toDigits 10 d)).flatten = _
  exact flatten_map_toDigits _
    (fun d hd => bn_init_lt10 n d (List.mem_reverse.mp hd))

theorem format_init_no_leading_zero (n : Nat) :
    (format_bn (bn_init n)).data.head? = some (Char.ofNat 48)
      → (format_bn (bn_init n)).data = [Char.ofNat 48] ∧ bn_toNat (bn_init n) = 0 := by
  intro hhead
  rw [format_init] at hhead ⊢
  by_cases h0 : n = 0
  · subst h0
    exact ⟨rfl, rfl⟩
  · exfalso
    rw [List.head?_map, List.head?_reverse] at hhead
    rcases Option.map_eq_some'.mp hhead with ⟨g, hg, hchar⟩
    have hmem : g ∈ (bn_init n).digits := List.mem_of_getLast?_eq_some hg
    have hlt : g < 10 := bn_init_lt10 n g hmem
    have hzero : g = 0 := char48_eq_zero g hlt hchar
    rcases bn_init_canonical n with hcan | hcan
    · have : bn_toNat (bn_init n) = 0 := by
        unfold bn_toNat
        rw [hcan]
        rfl
      rw [bn_toNat_init] at this
      exact h0 this
    · exact hcan (by rw [hg, hzero])

/-! ### The claims -/

/-- Claim C1: for every k in [0, 150] the three strategies agree — `fib_dp`,
`fib_double` and `fib_double_clz` return identical BigNumber values
(`fib_dp` being the correctness baseline). -/
theorem C1_strategies_agree (k : Nat) (hk : k ≤ 150) :
    fib_dp k = fib_double k ∧ fib_dp k = fib_double_clz k := by
  have h32 : k < 2 ^ 32 := lt_of_le_of_lt hk (by norm_num)
  exact ⟨by rw [fib_dp_eq, fib_double_eq k h32],
    by rw [fib_dp_eq, fib_double_clz_eq k h32]⟩

/-- Witness for C1 at k = 10. -/
theorem C1_strategies_agree_witness :
    (10 : Nat) ≤ 150 ∧ (fib_dp 10 = fib_double 10 ∧ fib_dp 10 = fib_double_clz 10) :=
  ⟨by decide, C1_strategies_agree 10 (by decide)⟩

/-- Claim C2: recurrence law — for every k with 2 ≤ k ≤ 150 and each of the
three strategies f, f(k) equals `bn_add` of f(k-1) and f(k-2). -/
theorem C2_recurrence (k : Nat) (h2 : 2 ≤ k) (hk : k ≤ 150) :
    fib_dp k = bn_add (fib_dp (k - 1)) (fib_dp (k - 2))
    ∧ fib_double k = bn_add (fib_double (k - 1)) (fib_double (k - 2))
    ∧ fib_double_clz k = bn_add (fib_double_clz (k - 1)) (fib_double_clz (k - 2)) := by
  obtain ⟨n, rfl⟩ : ∃ n, k = n + 2 := ⟨k - 2, by omega⟩
  have e1 : n + 2 - 1 = n + 1 := by omega
  have e2 : n + 2 - 2 = n := by omega
  rw [e1, e2]
  have b0 : n < 2 ^ 32 := by
    have : n + 2 < 2 ^ 32 := lt_of_le_of_lt hk (by norm_num)
    omega
  have b1 : n + 1 < 2 ^ 32 := by omega
  have b2 : n + 2 < 2 ^ 32 := by omega
  have hfib : Nat.fib (n + 1) + Nat.fib n = Nat.fib (n + 2) := by
    rw [Nat.fib_add_two]
    omega
  refine ⟨?_, ?_, ?_⟩
  · rw [fib_dp_eq, fib_dp_eq, fib_dp_eq, bn_add_init, hfib]
  · rw [fib_double_eq _ b2, fib_double_eq _ b1, fib_double_eq _ b0, bn_add_init, hfib]
  · rw [fib_double_clz_eq _ b2, fib_double_clz_eq _ b1, fib_double_clz_eq _ b0,
      bn_add_init, hfib]

/-- Witness for C2 at k = 9. -/
theorem C2_recurrence_witness :
    (2 ≤ 9 ∧ (9 : Nat) ≤ 150)
    ∧ (fib_dp 9 = bn_add (fib_dp (9 - 1)) (fib_dp (9 - 2))
        ∧ fib_double 9 = bn_add (fib_double (9 - 1)) (fib_double (9 - 2))
        ∧ fib_double_clz 9 = bn_add (fib_double_clz (9 - 1)) (fib_double_clz (9 - 2))) :=
  ⟨⟨by decide, by decide⟩, C2_recurrence 9 (by decide) (by decide)⟩

/-- Claim C3: base cases — every strategy returns the BigNumber for 0 at
k = 0 and for 1 at k = 1, and in both doubling variants these cases return
before the bit-scan loop runs (zero loop iterations). -/
theorem C3_base_cases :
    fib_dp 0 = bn_init 0 ∧ fib_dp 1 = bn_init 1
    ∧ fib_double 0 = bn_init 0 ∧ fib_double 1 = bn_init 1
    ∧ fib_double_clz 0 = bn_init 0 ∧ fib_double_clz 1 = bn_init 1
    ∧ fib_double_iters 0 = 0 ∧ fib_double_iters 1 = 0
    ∧ fib_double_clz_iters 0 = 0 ∧ fib_double_clz_iters 1 = 0 := by
  decide

/-- Claim C4: concrete values — under every strategy, formatting the result
as a decimal string yields "0", "1", "55", "12586269025" and
"7540113804746346429" at k = 0, 1, 10, 50 and 92 respectively. -/
theorem C4_concrete_values :
    format_bn (fib_dp 0) = "0" ∧ format_bn (fib_double 0) = "0"
    ∧ format_bn (fib_double_clz 0) = "0"
    ∧ format_bn (fib_dp 1) = "1" ∧ format_bn (fib_double 1) = "1"
    ∧ format_bn (fib_double_clz 1) = "1"
    ∧ format_bn (fib_dp 10) = "55" ∧ format_bn (fib_double 10) = "55"
    ∧ format_bn (fib_double_clz 10) = "55"
    ∧ format_bn (fib_dp 50) = "12586269025"
    ∧ format_bn (fib_double 50) = "12586269025"
    ∧ format_bn (fib_double_clz 50) = "12586269025"
    ∧ format_bn (fib_dp 92) = "7540113804746346429"
    ∧ format_bn (fib_double 92) = "7540113804746346429"
    ∧ format_bn (fib_double_clz 92) = "7540113804746346429" := by
  decide

/-- Every reachable doubling-loop state satisfies the `bn_sub` precondition:
the minuend `b + b` (two times the larger pair element) is at least the
subtrahend `a`. -/
theorem doubling_sub_precondition (k : Nat) (l : List Nat) :
    bn_toNat (l.foldl (doubleStep k) (bn_init 0, bn_init 1)).1
      ≤ bn_toNat (bn_add (l.foldl (doubleStep k) (bn_init 0, bn_init 1)).2
          (l.foldl (doubleStep k) (bn_init 0, bn_init 1)).2) := by
  obtain ⟨m', hm⟩ := foldl_doubleStep_shape k l 0
  have h0 : bn_init (Nat.fib 0) = bn_init 0 := by norm_num
  have h1 : bn_init (Nat.fib (0 + 1)) = bn_init 1 := by norm_num
  rw [h0, h1] at hm
  rw [hm]
  simp only [bn_add_init, bn_toNat_init]
  have := Nat.fib_le_fib_succ (n := m')
  omega

/-- Claim C5: subtraction precondition safety — before every iteration of
the doubling loop of `fib_double` and `fib_double_clz` (after any number `t`
of earlier iterations), the `bn_sub` call's minuend `2·F(n+1)` is at least
its subtrahend `F(n)`, so the contract violation is unreachable for k ≥ 2. -/
theorem C5_sub_precondition_safety (k t : Nat) (hk : 2 ≤ k) :
    (bn_toNat ((((List.range 32).reverse.take t)).foldl (doubleStep k)
          (bn_init 0, bn_init 1)).1
      ≤ bn_toNat (bn_add ((((List.range 32).reverse.take t)).foldl (doubleStep k)
            (bn_init 0, bn_init 1)).2
          ((((List.range 32).reverse.take t)).foldl (doubleStep k)
            (bn_init 0, bn_init 1)).2))
    ∧ (bn_toNat ((((List.range (32 - clz32 k)).reverse.take t)).foldl (doubleStep k)
          (bn_init 0, bn_init 1)).1
      ≤ bn_toNat (bn_add ((((List.range (32 - clz32 k)).reverse.take t)).foldl
            (doubleStep k) (bn_init 0, bn_init 1)).2
          ((((List.range (32 - clz32 k)).reverse.take t)).foldl (doubleStep k)
            (bn_init 0, bn_init 1)).2)) :=
  ⟨doubling_sub_precondition k _, doubling_sub_precondition k _⟩

/-- Witness for C5 at k = 2, t = 1. -/
theorem C5_sub_precondition_safety_witness :
    (2 : Nat) ≤ 2
    ∧ ((bn_toNat ((((List.range 32).reverse.take 1)).foldl (doubleStep 2)
            (bn_init 0, bn_init 1)).1
        ≤ bn_toNat (bn_add ((((List.range 32).reverse.take 1)).foldl (doubleStep 2)
              (bn_init 0, bn_init 1)).2
            ((((List.range 32).reverse.take 1)).foldl (doubleStep 2)
              (bn_init 0, bn_init 1)).2))
      ∧ (bn_toNat ((((List.range (32 - clz32 2)).reverse.take 1)).foldl (doubleStep 2)
            (bn_init 0, bn_init 1)).1
        ≤ bn_toNat (bn_add ((((List.range (32 - clz32 2)).reverse.take 1)).foldl
              (doubleStep 2) (bn_init 0, bn_init 1)).2
            ((((List.range (32 - clz32 2)).reverse.take 1)).foldl (doubleStep 2)
              (bn_init 0, bn_init 1)).2))) :=
  ⟨by decide, C5_sub_precondition_safety 2 1 (by decide)⟩

/-- Claim C6: for every k (below 2^32, where `__builtin_clz` is defined on
the truncated argument), `fib_double` and `fib_double_clz` produce
bit-for-bit identical BigNumber results. -/
theorem C6_double_variants_agree (k : Nat) (hk : k < 2 ^ 32) :
    fib_double k = fib_double_clz k := by
  rw [fib_double_eq k hk, fib_double_clz_eq k hk]

/-- Witness for C6 at k = 7. -/
theorem C6_double_variants_agree_witness :
    (7 : Nat) < 2 ^ 32 ∧ fib_double 7 = fib_double_clz 7 :=
  ⟨by norm_num, C6_double_variants_agree 7 (by norm_num)⟩

/-- Counterexample to claim C7 as stated: at k = 1 `fib_double_clz` returns
before the loop and so performs 0 iterations, not bit-length(1) = 1. -/
theorem C7_counterexample : ¬ (fib_double_clz_iters 1 = bitLength 1) := by
  decide

/-- Claim C7, amended: for every k (below 2^32, where `__builtin_clz` is
defined), `fib_double_clz` performs no more doubling-loop iterations than
`fib_double`; it performs exactly bit-length(k) iterations when k ≥ 2, and 0
iterations when k ≤ 1 (the short-circuited base cases). -/
theorem C7_iteration_counts (k : Nat) (hk : k < 2 ^ 32) :
    fib_double_clz_iters k ≤ fib_double_iters k
    ∧ (2 ≤ k → fib_double_clz_iters k = bitLength k)
    ∧ (k ≤ 1 → fib_double_clz_iters k = 0) := by
  by_cases h0 : k = 0
  · subst h0; decide
  · by_cases h1 : k = 1
    · subst h1; decide
    · have hlog : Nat.log2 k ≤ 31 := log2_le_31 k hk h0
      have hclz : clz32 k = 31 - Nat.log2 k := clz32_eq k hk
      have hciters : fib_double_clz_iters k = Nat.log2 k + 1 := by
        unfold fib_double_clz_iters
        rw [if_neg h0, if_neg h1, List.length_reverse, List.length_range, hclz]
        omega
      have hditers : fib_double_iters k = 32 := by
        unfold fib_double_iters
        rw [if_neg h0, if_neg h1, List.length_reverse, List.length_range]
      refine ⟨?_, ?_, ?_⟩
      · rw [hciters, hditers]; omega
      · intro _
        rw [hciters]
        unfold bitLength
        rw [if_neg h0]
      · intro hle
        exact absurd hle (by omega)

/-- Witness for C7 at k = 10 (bit length 4). -/
theorem C7_iteration_counts_witness :
    (10 : Nat) < 2 ^ 32
    ∧ (fib_double_clz_iters 10 ≤ fib_double_iters 10
        ∧ (2 ≤ 10 → fib_double_clz_iters 10 = bitLength 10)
        ∧ ((10 : Nat) ≤ 1 → fib_double_clz_iters 10 = 0)) :=
  ⟨by norm_num, C7_iteration_counts 10 (by norm_num)⟩

/-- Claim C8: the formatter renders the digits of a strategy result
most-significant first as ASCII decimal characters (one character per digit,
code 48 + digit), and never emits a leading zero character except for the
single-character string "0" denoting the zero value. -/
theorem C8_formatter (k : Nat) (hk : k < 2 ^ 32) (r : bn_t)
    (hr : r = fib_dp k ∨ r = fib_double k ∨ r = fib_double_clz k) :
    (format_bn r).data = r.digits.reverse.map (fun d => Char.ofNat (48 + d))
    ∧ ((format_bn r).data.head? = some (Char.ofNat 48)
        → (format_bn r).data = [Char.ofNat 48] ∧ bn_toNat r = 0) := by
  have hinit : r = bn_init (Nat.fib k) := by
    rcases hr with h | h | h
    · rw [h, fib_dp_eq]
    · rw [h, fib_double_eq k hk]
    · rw [h, fib_double_clz_eq k hk]
  subst hinit
  exact ⟨format_init _, format_init_no_leading_zero _⟩

/-- Witness for C8 at k = 0, r = `fib_dp 0`. -/
theorem C8_formatter_witness :
    ((0 : Nat) < 2 ^ 32 ∧ (fib_dp 0 = fib_dp 0 ∨ fib_dp 0 = fib_double 0
        ∨ fib_dp 0 = fib_double_clz 0))
    ∧ ((format_bn (fib_dp 0)).data
          = (fib_dp 0).digits.reverse.map (fun d => Char.ofNat (48 + d))
        ∧ ((format_bn (fib_dp 0)).data.head? = some (Char.ofNat 48)
            → (format_bn (fib_dp 0)).data = [Char.ofNat 48]
              ∧ bn_toNat (fib_dp 0) = 0)) :=
  ⟨⟨by norm_num, Or.inl rfl⟩, C8_formatter 0 (by norm_num) (fib_dp 0) (Or.inl rfl)⟩

/-- Claim C9: `fib_write` leaves the strategy selector unchanged whenever the
first byte of the buffer is none of 0, 1, 2, and returns 1 for every input,
whatever the byte value and the `size` argument. -/
theorem C9_fib_write (buf0 : Int) (size : Nat) (cur : FibAlg) :
    ((buf0 ≠ 0 ∧ buf0 ≠ 1 ∧ buf0 ≠ 2) → (fib_write buf0 size cur).1 = cur)
    ∧ (fib_write buf0 size cur).2 = 1 := by
  constructor
  · intro h
    unfold fib_write
    rw [if_neg h.1, if_neg h.2.1, if_neg h.2.2]
  · rfl

/-- Witness for C9 at byte 5, size 0, selector `FIB_DP`. -/
theorem C9_fib_write_witness :
    ((5 : Int) ≠ 0 ∧ (5 : Int) ≠ 1 ∧ (5 : Int) ≠ 2)
    ∧ (fib_write 5 0 FibAlg.FIB_DP).1 = FibAlg.FIB_DP
    ∧ (fib_write 5 0 FibAlg.FIB_DP).2 = 1 :=
  ⟨by decide, (C9_fib_write 5 0 FibAlg.FIB_DP).1 (by decide),
    (C9_fib_write 5 0 FibAlg.FIB_DP).2⟩

/-- Claim C10: the position computed by `fib_device_lseek` always lies in
[0, 150]; origin values other than 0, 1, 2 yield position 0; and SEEK_END
(origin 2) computes `MAX_LENGTH - offset` and then clamps it. -/
theorem C10_lseek_clamp (p off o : Int) :
    (0 ≤ fib_device_lseek p off o ∧ fib_device_lseek p off o ≤ MAX_LENGTH)
    ∧ ((o ≠ 0 ∧ o ≠ 1 ∧ o ≠ 2) → fib_device_lseek p off o = 0)
    ∧ (fib_device_lseek p off 2
        = if MAX_LENGTH - off > MAX_LENGTH then MAX_LENGTH
          else if MAX_LENGTH - off < 0 then 0 else MAX_LENGTH - off) := by
  refine ⟨?_, ?_, ?_⟩
  · unfold fib_device_lseek MAX_LENGTH
    dsimp only
    split_ifs <;> omega
  · intro h
    obtain ⟨h0, h1, h2⟩ := h
    unfold fib_device_lseek MAX_LENGTH
    dsimp only
    rw [if_neg h0, if_neg h1, if_neg h2]
    norm_num
  · unfold fib_device_lseek MAX_LENGTH
    dsimp only
    split_ifs <;> omega

/-- Witness for C10 at position 0, offset 3, origin 7. -/
theorem C10_lseek_clamp_witness :
    ((7 : Int) ≠ 0 ∧ (7 : Int) ≠ 1 ∧ (7 : Int) ≠ 2)
    ∧ fib_device_lseek 0 3 7 = 0
    ∧ (0 ≤ fib_device_lseek 0 3 7 ∧ fib_device_lseek 0 3 7 ≤ MAX_LENGTH) :=
  ⟨by decide, (C10_lseek_clamp 0 3 7).2.1 (by decide), (C10_lseek_clamp 0 3 7).1⟩
